import Mathlib

/-!
Verification of the BN254 differential-test vector generator: the
field/integer codec, the point codec with its point-at-infinity wire
convention, and the deterministic per-action test-vector generators.

The codec is embedded generically over the field modulus, mirroring the
generic source implementations (the conversions are generic over the curve
configuration, with the modulus-bit-size precondition checked at every
conversion).  The external elliptic-curve library is modelled by its
mathematical contract: the prime-order pairing groups are represented by
their exponents over the scalar field, and library outputs consumed by the
generators (random draws, square roots) appear as explicit oracle
parameters, so every generator is a pure function of its seed and oracles.
-/

namespace DiffTest

instance : NeZero ((2 : ℕ) ^ 256) := ⟨pow_ne_zero _ (by norm_num)⟩

instance : NeZero (13 : ℕ) := ⟨by decide⟩

/-- A 256-bit unsigned machine word (the wire integer type). -/
abbrev U256 : Type := Fin (2 ^ 256)

/-- Convert a field element to a 256-bit word.  The conversion fails
(modelling the fatal panic) when the modulus bit length exceeds 256,
i.e. when the modulus is at least 2 ^ 256; otherwise it returns the
canonical representative of the element, which then fits in the word. -/
def field_to_u256 (p : ℕ) [NeZero p] (f : ZMod p) : Option U256 :=
  if h : p < 2 ^ 256 then some ⟨f.val, lt_trans (ZMod.val_lt f) h⟩ else none

/-- Convert a 256-bit word to a field element by reducing it modulo the
field order; this is total. -/
def u256_to_field (p : ℕ) (x : U256) : ZMod p := ((x : ℕ) : ZMod p)

/-- Wire record of a G1 point: two 256-bit coordinate words. -/
structure ParsedG1Point where
  x : U256
  y : U256
deriving DecidableEq

/-- An affine short-Weierstrass point: either the point at infinity or a
finite point given by its two coordinates (mirroring the affine
representation with an infinity flag used by the curve library). -/
inductive AffinePoint (p : ℕ) where
  | infinity : AffinePoint p
  | point (x y : ZMod p) : AffinePoint p
deriving DecidableEq

/-- Curve-membership test of the curve library: the point at infinity
passes, and a finite point passes exactly when y^2 = x^3 + a*x + b. -/
def is_on_curve (p : ℕ) (a b : ZMod p) : AffinePoint p → Bool
  | .infinity => true
  | .point x y => decide (y ^ 2 = x ^ 3 + a * x + b)

/-- Encode an affine point as a wire record: the identity maps directly to
the all-zero pair (the precompile convention, with no field conversion
involved), and a finite point maps to its coordinates' representatives;
fails when a coordinate conversion fails. -/
def affine_to_parsed (p : ℕ) [NeZero p] : AffinePoint p → Option ParsedG1Point
  | .infinity => some ⟨0, 0⟩
  | .point x y => do
      let wx ← field_to_u256 p x
      let wy ← field_to_u256 p y
      pure ⟨wx, wy⟩

/-- Decode a wire record: the all-zero pair maps to the identity, and any
other record is passed to the checked affine constructor on the reduced
words, which asserts curve membership and subgroup membership (the
subgroup predicate is the curve library's, taken as the oracle subOk) and
aborts — modelled as none — when either assert fails. -/
def parsed_to_affine (p : ℕ) (a b : ZMod p) (subOk : ZMod p → ZMod p → Bool)
    (w : ParsedG1Point) : Option (AffinePoint p) :=
  if w = ⟨0, 0⟩ then some AffinePoint.infinity
  else
    if is_on_curve p a b
          (AffinePoint.point (u256_to_field p w.x) (u256_to_field p w.y)) = true
        ∧ subOk (u256_to_field p w.x) (u256_to_field p w.y) = true
    then some (AffinePoint.point (u256_to_field p w.x) (u256_to_field p w.y))
    else none

/-- Core of the G1 on-curve action: decode the wire record through the
checked constructor, then evaluate the curve-membership predicate on the
decoded point; the whole action aborts when decoding does. -/
def g1_is_on_curve_action (p : ℕ) (a b : ZMod p)
    (subOk : ZMod p → ZMod p → Bool) (w : ParsedG1Point) : Option Bool :=
  Option.map (is_on_curve p a b) (parsed_to_affine p a b subOk w)

/-- Modulus of the BN254 base field. -/
def bn254_base_modulus : ℕ :=
  21888242871839275222246405745257275088696311157297823662689037894645226208583

/-- C5: the field/integer codec round trips both ways when the modulus
fits in 256 bits: a word below the modulus maps into the field and back to
itself, and a field element maps to a word and back to itself. -/
theorem field_u256_roundtrip (p : ℕ) [NeZero p] (hp : p < 2 ^ 256)
    (x : U256) (hx : (x : ℕ) < p) (f : ZMod p) :
    field_to_u256 p (u256_to_field p x) = some x
      ∧ Option.map (u256_to_field p) (field_to_u256 p f) = some f := by
  constructor
  · unfold field_to_u256 u256_to_field
    rw [dif_pos hp]
    refine congrArg some (Fin.ext ?_)
    simp [ZMod.val_natCast, Nat.mod_eq_of_lt hx]
  · unfold field_to_u256 u256_to_field
    rw [dif_pos hp]
    simp [ZMod.natCast_rightInverse f]

/-- Witness for C5 at the modulus 13 with the word 5 and the element 7. -/
theorem field_u256_roundtrip_wit :
    (13 : ℕ) < 2 ^ 256 ∧ ((5 : U256) : ℕ) < 13
      ∧ (field_to_u256 13 (u256_to_field 13 5) = some 5
          ∧ Option.map (u256_to_field 13) (field_to_u256 13 (7 : ZMod 13))
              = some 7) :=
  ⟨by decide, by decide, field_u256_roundtrip 13 (by decide) 5 (by decide) 7⟩

/-- C1: for any point on a curve whose constant coefficient b is nonzero
(as for BN254, where b = 3) over a modulus fitting in 256 bits, with the
library subgroup predicate accepting every on-curve point (the
cofactor-one contract of BN254 G1), decoding the wire encoding returns
the original point; moreover the identity encodes to the all-zero pair
and the all-zero pair decodes to the identity. -/
theorem g1_codec_roundtrip (p : ℕ) [NeZero p] (a b : ZMod p)
    (subOk : ZMod p → ZMod p → Bool) (P : AffinePoint p)
    (hp : p < 2 ^ 256) (hb : b ≠ 0)
    (hsub : ∀ x y : ZMod p,
      is_on_curve p a b (AffinePoint.point x y) = true → subOk x y = true)
    (hP : is_on_curve p a b P = true) :
    Option.bind (affine_to_parsed p P) (parsed_to_affine p a b subOk) = some P
      ∧ affine_to_parsed p AffinePoint.infinity = some ⟨0, 0⟩
      ∧ parsed_to_affine p a b subOk ⟨0, 0⟩ = some AffinePoint.infinity := by
  refine ⟨?_, rfl, by simp [parsed_to_affine]⟩
  cases P with
  | infinity => simp [affine_to_parsed, parsed_to_affine]
  | point x y =>
      have hcurve : y ^ 2 = x ^ 3 + a * x + b := by
        have := hP
        simpa [is_on_curve] using this
      have hxy : ¬(x = 0 ∧ y = 0) := by
        rintro ⟨hx, hy⟩
        apply hb
        rw [hx, hy] at hcurve
        simpa using hcurve.symm
      have hx256 : x.val < 2 ^ 256 := lt_trans (ZMod.val_lt x) hp
      have hy256 : y.val < 2 ^ 256 := lt_trans (ZMod.val_lt y) hp
      have henc : affine_to_parsed p (AffinePoint.point x y)
          = some ⟨⟨x.val, hx256⟩, ⟨y.val, hy256⟩⟩ := by
        simp only [affine_to_parsed, field_to_u256]
        rw [dif_pos hp, dif_pos hp]
        rfl
      rw [henc]
      have hne : (⟨⟨x.val, hx256⟩, ⟨y.val, hy256⟩⟩ : ParsedG1Point) ≠ ⟨0, 0⟩ := by
        intro heq
        apply hxy
        have hx0 : x.val = 0 := congrArg (fun w => w.x.val) heq
        have hy0 : y.val = 0 := congrArg (fun w => w.y.val) heq
        exact ⟨(ZMod.val_eq_zero x).mp hx0, (ZMod.val_eq_zero y).mp hy0⟩
      have hxc : u256_to_field p (⟨x.val, hx256⟩ : U256) = x :=
        ZMod.natCast_rightInverse x
      have hyc : u256_to_field p (⟨y.val, hy256⟩ : U256) = y :=
        ZMod.natCast_rightInverse y
      show parsed_to_affine p a b subOk ⟨⟨x.val, hx256⟩, ⟨y.val, hy256⟩⟩
          = some (AffinePoint.point x y)
      rw [parsed_to_affine, if_neg hne, hxc, hyc, if_pos ⟨hP, hsub x y hP⟩]

/-- Witness for C1 at the curve y^2 = x^3 + 3 over the field with 13
elements and its point (1, 2), with the constantly true subgroup
predicate. -/
theorem g1_codec_roundtrip_wit :
    (13 : ℕ) < 2 ^ 256 ∧ (3 : ZMod 13) ≠ 0
      ∧ (∀ x y : ZMod 13,
          is_on_curve 13 0 3 (AffinePoint.point x y) = true →
            (fun _ _ : ZMod 13 => true) x y = true)
      ∧ is_on_curve 13 0 3 (AffinePoint.point 1 2) = true
      ∧ (Option.bind (affine_to_parsed 13 (AffinePoint.point (1 : ZMod 13) 2))
            (parsed_to_affine 13 0 3 (fun _ _ => true))
            = some (AffinePoint.point 1 2)
          ∧ affine_to_parsed 13 AffinePoint.infinity = some ⟨0, 0⟩
          ∧ parsed_to_affine 13 0 3 (fun _ _ => true) ⟨0, 0⟩
              = some AffinePoint.infinity) :=
  ⟨by decide, by decide, fun _ _ _ => rfl, by decide,
    g1_codec_roundtrip 13 0 3 (fun _ _ => true) (AffinePoint.point 1 2)
      (by decide) (by decide) (fun _ _ _ => rfl) (by decide)⟩

/-- Counterexample to C2 as stated: over the BN254 base field the record
(1, 1) differs from the all-zero pair, yet decoding it returns none — the
checked constructor's on-curve assert fires, since (1, 1) does not
satisfy y^2 = x^3 + 3, so the program aborts instead of returning the
off-curve point. -/
theorem wire_decode_aborts_counterexample :
    (⟨1, 1⟩ : ParsedG1Point) ≠ ⟨0, 0⟩
      ∧ parsed_to_affine bn254_base_modulus 0 3 (fun _ _ => true) ⟨1, 1⟩
          = none := by
  refine ⟨by decide, ?_⟩
  rw [parsed_to_affine, if_neg (by decide)]
  rw [if_neg]
  intro hc
  have h1 : u256_to_field bn254_base_modulus ((1 : U256)) = 1 := by
    show ((1 : ℕ) : ZMod bn254_base_modulus) = 1
    exact Nat.cast_one
  have hcurve := hc.1
  rw [h1] at hcurve
  simp only [is_on_curve, decide_eq_true_eq] at hcurve
  have h3 : (3 : ZMod bn254_base_modulus) = 0 := by
    have : (1 : ZMod bn254_base_modulus) = 1 + 3 := by
      calc (1 : ZMod bn254_base_modulus) = 1 ^ 2 := by ring
        _ = 1 ^ 3 + 0 * 1 + 3 := hcurve
        _ = 1 + 3 := by ring
    calc (3 : ZMod bn254_base_modulus) = (1 + 3) - 1 := by ring
      _ = 1 - 1 := by rw [← this]
      _ = 0 := by ring
  have hdvd : bn254_base_modulus ∣ 3 := by
    haveI : NeZero bn254_base_modulus := ⟨by decide⟩
    have := (ZMod.natCast_zmod_eq_zero_iff_dvd 3 bn254_base_modulus).mp
      (by exact_mod_cast h3)
    exact this
  have hle : bn254_base_modulus ≤ 3 := Nat.le_of_dvd (by norm_num) hdvd
  have : ¬ bn254_base_modulus ≤ 3 := by decide
  exact this hle

/-- C2 amended: decoding a wire record other than the all-zero pair
constructs the point from the reduced coordinate words and asserts the
checked constructor's on-curve and subgroup checks — it succeeds with
that point exactly when both checks pass and aborts otherwise; hence the
separate on-curve action never reports false on such records: it either
aborts during decoding or reports true. -/
theorem wire_decode_checked (p : ℕ) (a b : ZMod p)
    (subOk : ZMod p → ZMod p → Bool) (w : ParsedG1Point)
    (hw : w ≠ ⟨0, 0⟩) :
    (parsed_to_affine p a b subOk w
        = some (AffinePoint.point (u256_to_field p w.x) (u256_to_field p w.y))
      ↔ (is_on_curve p a b
            (AffinePoint.point (u256_to_field p w.x) (u256_to_field p w.y))
              = true
          ∧ subOk (u256_to_field p w.x) (u256_to_field p w.y) = true))
      ∧ (¬(is_on_curve p a b
            (AffinePoint.point (u256_to_field p w.x) (u256_to_field p w.y))
              = true
          ∧ subOk (u256_to_field p w.x) (u256_to_field p w.y) = true) →
          parsed_to_affine p a b subOk w = none)
      ∧ (∀ r, g1_is_on_curve_action p a b subOk w = some r → r = true) := by
  by_cases hC : is_on_curve p a b
        (AffinePoint.point (u256_to_field p w.x) (u256_to_field p w.y)) = true
      ∧ subOk (u256_to_field p w.x) (u256_to_field p w.y) = true
  · have hdec : parsed_to_affine p a b subOk w
        = some (AffinePoint.point (u256_to_field p w.x) (u256_to_field p w.y)) := by
      rw [parsed_to_affine, if_neg hw, if_pos hC]
    refine ⟨⟨fun _ => hC, fun _ => hdec⟩, fun hnc => absurd hC hnc, ?_⟩
    intro r hr
    rw [g1_is_on_curve_action, hdec, Option.map_some'] at hr
    have := Option.some.inj hr
    rw [← this, hC.1]
  · have hdec : parsed_to_affine p a b subOk w = none := by
      rw [parsed_to_affine, if_neg hw, if_neg hC]
    refine ⟨⟨fun he => ?_, fun hc => absurd hc hC⟩, fun _ => hdec, ?_⟩
    · rw [hdec] at he
      exact Option.noConfusion he
    · intro r hr
      rw [g1_is_on_curve_action, hdec] at hr
      exact Option.noConfusion hr

/-- Witness for the amended C2 over the BN254 base field with the record
(1, 2), whose decoded point lies on y^2 = x^3 + 3. -/
theorem wire_decode_checked_wit :
    (⟨1, 2⟩ : ParsedG1Point) ≠ ⟨0, 0⟩
      ∧ ((parsed_to_affine bn254_base_modulus 0 3 (fun _ _ => true) ⟨1, 2⟩
            = some (AffinePoint.point
                (u256_to_field bn254_base_modulus ((⟨1, 2⟩ : ParsedG1Point).x))
                (u256_to_field bn254_base_modulus ((⟨1, 2⟩ : ParsedG1Point).y)))
          ↔ (is_on_curve bn254_base_modulus 0 3
                (AffinePoint.point
                  (u256_to_field bn254_base_modulus ((⟨1, 2⟩ : ParsedG1Point).x))
                  (u256_to_field bn254_base_modulus ((⟨1, 2⟩ : ParsedG1Point).y)))
                  = true
              ∧ (fun _ _ : ZMod bn254_base_modulus => true)
                  (u256_to_field bn254_base_modulus ((⟨1, 2⟩ : ParsedG1Point).x))
                  (u256_to_field bn254_base_modulus ((⟨1, 2⟩ : ParsedG1Point).y))
                  = true))
          ∧ (¬(is_on_curve bn254_base_modulus 0 3
                (AffinePoint.point
                  (u256_to_field bn254_base_modulus ((⟨1, 2⟩ : ParsedG1Point).x))
                  (u256_to_field bn254_base_modulus ((⟨1, 2⟩ : ParsedG1Point).y)))
                  = true
              ∧ (fun _ _ : ZMod bn254_base_modulus => true)
                  (u256_to_field bn254_base_modulus ((⟨1, 2⟩ : ParsedG1Point).x))
                  (u256_to_field bn254_base_modulus ((⟨1, 2⟩ : ParsedG1Point).y))
                  = true) →
              parsed_to_affine bn254_base_modulus 0 3 (fun _ _ => true) ⟨1, 2⟩
                = none)
          ∧ (∀ r, g1_is_on_curve_action bn254_base_modulus 0 3
                (fun _ _ => true) ⟨1, 2⟩ = some r → r = true)) :=
  ⟨by decide,
    wire_decode_checked bn254_base_modulus 0 3 (fun _ _ => true) ⟨1, 2⟩
      (by decide)⟩

/-- Canonical-root selection of the quadratic-residue generator: given
the square-root library result for the drawn element, negate the returned
root when its representative exceeds (p - 1) / 2, and return the field
zero with a false flag when no root exists. -/
def qr_canonical (p : ℕ) [NeZero p] (sqrtRes : Option (ZMod p)) : ZMod p × Bool :=
  match sqrtRes with
  | some a => if (p - 1) / 2 < a.val then (-a, true) else (a, true)
  | none => (0, false)

/-- Quadratic-residue generator output for a drawn field element x and a
square-root oracle: the triple (x, selected root or zero, residue flag). -/
def qr_gen (p : ℕ) [NeZero p] (sqrtFn : ZMod p → Option (ZMod p)) (x : ZMod p) :
    ZMod p × ZMod p × Bool :=
  let r := qr_canonical p (sqrtFn x)
  (x, r.1, r.2)

/-- Canonical-root selection on a returned root squares to the same value,
lands at or below (p - 1) / 2 when the modulus is odd, and sets the flag. -/
lemma qr_canonical_some_spec (p : ℕ) [NeZero p] (hodd : p % 2 = 1) (a : ZMod p) :
    (qr_canonical p (some a)).1 ^ 2 = a ^ 2
      ∧ (qr_canonical p (some a)).1.val ≤ (p - 1) / 2
      ∧ (qr_canonical p (some a)).2 = true := by
  simp only [qr_canonical]
  by_cases hbig : (p - 1) / 2 < a.val
  · rw [if_pos hbig]
    refine ⟨neg_sq a, ?_, rfl⟩
    have ha0 : a ≠ 0 := by
      intro h0
      rw [h0, ZMod.val_zero] at hbig
      exact Nat.not_lt_zero _ hbig
    have hlt : a.val < p := ZMod.val_lt a
    show (-a).val ≤ (p - 1) / 2
    rw [ZMod.neg_val, if_neg ha0]
    omega
  · rw [if_neg hbig]
    exact ⟨rfl, le_of_not_lt hbig, rfl⟩

/-- C4: over an odd modulus, whenever the square-root oracle meets its
contract on the drawn element x, the generator output (x, a, flag)
satisfies: a true flag comes with a^2 = x and a representative at most
(p - 1) / 2, and when no root exists the root slot is zero with a false
flag. -/
theorem qr_gen_correct (p : ℕ) [NeZero p] (hodd : p % 2 = 1)
    (sqrtFn : ZMod p → Option (ZMod p)) (x : ZMod p)
    (hs : ∀ a, sqrtFn x = some a → a ^ 2 = x) :
    ((qr_gen p sqrtFn x).2.2 = true →
        (qr_gen p sqrtFn x).2.1 ^ 2 = x
          ∧ (qr_gen p sqrtFn x).2.1.val ≤ (p - 1) / 2)
      ∧ (sqrtFn x = none →
          (qr_gen p sqrtFn x).2.1 = 0 ∧ (qr_gen p sqrtFn x).2.2 = false) := by
  cases hres : sqrtFn x with
  | none =>
      constructor
      · intro hflag
        exfalso
        revert hflag
        simp [qr_gen, qr_canonical, hres]
      · intro _
        simp [qr_gen, qr_canonical, hres]
  | some a =>
      have ha : a ^ 2 = x := hs a hres
      obtain ⟨h1, h2, _⟩ := qr_canonical_some_spec p hodd a
      constructor
      · intro _
        have e : (qr_gen p sqrtFn x).2.1 = (qr_canonical p (some a)).1 := by
          simp [qr_gen, hres]
        rw [e]
        exact ⟨h1.trans ha, h2⟩
      · intro hnone
        exact Option.noConfusion hnone

/-- Witness for C4 at the modulus 13, the residue 4, and an oracle
returning the non-canonical root 11 (the generator flips it to 2). -/
theorem qr_gen_correct_wit :
    (13 : ℕ) % 2 = 1
      ∧ (∀ a : ZMod 13,
          (fun z : ZMod 13 => if z = 4 then some (11 : ZMod 13) else none) 4
              = some a → a ^ 2 = 4)
      ∧ (((qr_gen 13 (fun z : ZMod 13 => if z = 4 then some 11 else none)
              4).2.2 = true →
            (qr_gen 13 (fun z : ZMod 13 => if z = 4 then some 11 else none)
                4).2.1 ^ 2 = 4
              ∧ (qr_gen 13 (fun z : ZMod 13 => if z = 4 then some 11 else none)
                  4).2.1.val ≤ (13 - 1) / 2)
          ∧ ((fun z : ZMod 13 => if z = 4 then some (11 : ZMod 13) else none) 4
                = none →
              (qr_gen 13 (fun z : ZMod 13 => if z = 4 then some 11 else none)
                  4).2.1 = 0
                ∧ (qr_gen 13 (fun z : ZMod 13 => if z = 4 then some 11 else none)
                    4).2.2 = false)) :=
  ⟨by decide, by decide,
    qr_gen_correct 13 (by decide)
      (fun z : ZMod 13 => if z = 4 then some 11 else none) 4 (by decide)⟩

/-- Derived fourth scalar of the pairing-product generator:
beta_r = alpha_l * beta_l / alpha_r, with field division modelled as
multiplication by the inverse. -/
def pp2_beta (m : ℕ) (al bl ar : ZMod m) : ZMod m := al * bl * ar⁻¹

/-- Pairing in exponent form: the two pairing groups have prime order m
and the pairing of the u-th power of one generator with the v-th power of
the other is the (u * v)-th power of a fixed generator of the target
group, so by nondegeneracy pairing values are compared as exponents. -/
def pairing_exp (m : ℕ) (u v : ZMod m) : ZMod m := u * v

/-- Exponents of the two constructed pairs ((a1, a2), (b1, b2)) of the
pairing-product generator, after the parity-keyed doubling of b2. -/
def pp2_pairs (m : ℕ) (al bl ar : ZMod m) (s : ℕ) :
    (ZMod m × ZMod m) × (ZMod m × ZMod m) :=
  ((al, bl),
    (ar, if s % 2 = 0 then 2 * pp2_beta m al bl ar else pp2_beta m al bl ar))

/-- Encoded output exponents (a1, a2, -b1, b2) of the pairing-product
generator, b2 doubled exactly on even seeds. -/
def pp2_output (m : ℕ) (al bl ar : ZMod m) (s : ℕ) :
    ZMod m × ZMod m × ZMod m × ZMod m :=
  (al, bl, -ar, (pp2_pairs m al bl ar s).2.2)

/-- Counterexample to C3 as stated: with drawn scalars
alpha_l = 0, beta_l = 1, alpha_r = 1 (nonzero, satisfying the claim's
hypothesis) and the even seed 0, the pairing equality still holds after
the doubling of b2, where the claim says it must strictly fail. -/
theorem pp2_even_fail_counterexample :
    (1 : ZMod 13) ≠ 0 ∧ 0 % 2 = 0
      ∧ pairing_exp 13 (pp2_pairs 13 0 1 1 0).1.1 (pp2_pairs 13 0 1 1 0).1.2
          = pairing_exp 13 (pp2_pairs 13 0 1 1 0).2.1
              (pp2_pairs 13 0 1 1 0).2.2 := by
  refine ⟨by decide, rfl, ?_⟩
  simp [pairing_exp, pp2_pairs, pp2_beta]

/-- C3 amended: when the drawn alpha_r is invertible and additionally the
product alpha_l * beta_l is nonzero, the two constructed pairs pair
equally before any doubling, an even seed makes the pairing equality of
the doubled pairs strictly fail, and the output is (a1, a2, -b1, b2) with
b2 doubled exactly on even seeds. -/
theorem pp2_gen_correct (m : ℕ) (al bl ar : ZMod m) (s : ℕ)
    (hg : Nat.gcd ar.val m = 1) (hprod : al * bl ≠ 0) :
    pairing_exp m al bl = pairing_exp m ar (pp2_beta m al bl ar)
      ∧ (s % 2 = 0 →
          pairing_exp m (pp2_pairs m al bl ar s).1.1 (pp2_pairs m al bl ar s).1.2
            ≠ pairing_exp m (pp2_pairs m al bl ar s).2.1
                (pp2_pairs m al bl ar s).2.2)
      ∧ pp2_output m al bl ar s
          = (al, bl, -ar,
              if s % 2 = 0 then 2 * pp2_beta m al bl ar
              else pp2_beta m al bl ar) := by
  have hinv : ar * ar⁻¹ = 1 := by
    rw [ZMod.mul_inv_eq_gcd, hg, Nat.cast_one]
  have hkey : ar * pp2_beta m al bl ar = al * bl := by
    unfold pp2_beta
    calc ar * (al * bl * ar⁻¹) = al * bl * (ar * ar⁻¹) := by ring
      _ = al * bl := by rw [hinv, mul_one]
  refine ⟨?_, ?_, rfl⟩
  · unfold pairing_exp
    exact hkey.symm
  · intro hev
    unfold pairing_exp pp2_pairs
    rw [if_pos hev]
    intro heq
    apply hprod
    have h2 : al * bl = al * bl + al * bl := by
      calc al * bl = ar * (2 * pp2_beta m al bl ar) := by simpa using heq
        _ = 2 * (ar * pp2_beta m al bl ar) := by ring
        _ = al * bl + al * bl := by rw [hkey]; ring
    exact (self_eq_add_right.mp h2)

/-- Witness for the amended C3 at the modulus 13 with drawn scalars
1, 1, 2 and the even seed 0. -/
theorem pp2_gen_correct_wit :
    Nat.gcd ((2 : ZMod 13)).val 13 = 1 ∧ (1 : ZMod 13) * 1 ≠ 0
      ∧ (pairing_exp 13 1 1 = pairing_exp 13 2 (pp2_beta 13 1 1 2)
          ∧ ((0 : ℕ) % 2 = 0 →
              pairing_exp 13 (pp2_pairs 13 1 1 2 0).1.1 (pp2_pairs 13 1 1 2 0).1.2
                ≠ pairing_exp 13 (pp2_pairs 13 1 1 2 0).2.1
                    (pp2_pairs 13 1 1 2 0).2.2)
          ∧ pp2_output 13 1 1 2 0
              = (1, 1, -2,
                  if (0 : ℕ) % 2 = 0 then 2 * pp2_beta 13 1 1 2
                  else pp2_beta 13 1 1 2)) :=
  ⟨by decide, by decide, pp2_gen_correct 13 1 1 2 0 (by decide) (by decide)⟩

/-- Scalar inverse with the library's failure contract: the inverse call
returns none exactly on the zero scalar and otherwise the inverse. -/
def fr_inverse (m : ℕ) (s : ZMod m) : Option (ZMod m) :=
  if s = 0 then none else some s⁻¹

/-- Scalar-inverse action: reduce the argument word into the scalar
field, invert it (failing fatally on zero), and convert the result back
to a word. -/
def scalar_inv_action (m : ℕ) [NeZero m] (x : U256) : Option U256 :=
  (fr_inverse m (u256_to_field m x)).bind (field_to_u256 m)

/-- C7: the scalar-inverse action fails (no output) exactly when the
argument reduces to zero in the scalar field; on a nonzero scalar it
outputs a word that reduces back to the scalar's inverse, and that
inverse is the multiplicative inverse whenever the scalar's
representative is coprime to the modulus (always, for the prime BN254
scalar-field modulus). -/
theorem scalar_inv_correct (m : ℕ) [NeZero m] (hm : m < 2 ^ 256) (x : U256) :
    (u256_to_field m x = 0 → scalar_inv_action m x = none)
      ∧ (u256_to_field m x ≠ 0 →
          ∃ w, scalar_inv_action m x = some w
            ∧ u256_to_field m w = (u256_to_field m x)⁻¹)
      ∧ (Nat.gcd (u256_to_field m x).val m = 1 →
          u256_to_field m x * (u256_to_field m x)⁻¹ = 1) := by
  refine ⟨?_, ?_, ?_⟩
  · intro h0
    rw [scalar_inv_action, fr_inverse, if_pos h0]
    rfl
  · intro h0
    rw [scalar_inv_action, fr_inverse, if_neg h0]
    have hlt : ((u256_to_field m x)⁻¹).val < 2 ^ 256 :=
      lt_trans (ZMod.val_lt _) hm
    refine ⟨⟨((u256_to_field m x)⁻¹).val, hlt⟩, ?_, ?_⟩
    · show field_to_u256 m ((u256_to_field m x)⁻¹) = _
      rw [field_to_u256, dif_pos hm]
    · exact ZMod.natCast_rightInverse _
  · intro hg
    rw [ZMod.mul_inv_eq_gcd, hg, Nat.cast_one]

/-- Witness for C7 at the modulus 13 and the argument word 5. -/
theorem scalar_inv_correct_wit :
    (13 : ℕ) < 2 ^ 256
      ∧ ((u256_to_field 13 (5 : U256) = 0 → scalar_inv_action 13 5 = none)
          ∧ (u256_to_field 13 (5 : U256) ≠ 0 →
              ∃ w, scalar_inv_action 13 5 = some w
                ∧ u256_to_field 13 w = (u256_to_field 13 (5 : U256))⁻¹)
          ∧ (Nat.gcd (u256_to_field 13 (5 : U256)).val 13 = 1 →
              u256_to_field 13 (5 : U256) * (u256_to_field 13 (5 : U256))⁻¹
                = 1)) :=
  ⟨by decide, scalar_inv_correct 13 (by decide) 5⟩

/-- G1-add generator at exponent level: draw two group elements from the
RNG seeded by the seed word and return both together with their sum. -/
def g1_add_gen (m : ℕ) (R : Type) (seedFrom : ℕ → R) (next : R → ZMod m × R)
    (s : ℕ) : ZMod m × ZMod m × ZMod m :=
  let d1 := next (seedFrom s)
  let d2 := next d1.2
  (d1.1, d2.1, d1.1 + d2.1)

/-- G1-negate generator at exponent level: draw one group element from the
seeded RNG and return it together with its negation. -/
def g1_neg_gen (m : ℕ) (R : Type) (seedFrom : ℕ → R) (next : R → ZMod m × R)
    (s : ℕ) : ZMod m × ZMod m :=
  let d1 := next (seedFrom s)
  (d1.1, -d1.1)

/-- Seeded quadratic-residue generator: draw the base-field element from
the seeded RNG, then apply the canonical-root selection. -/
def qr_seed_gen (p : ℕ) [NeZero p] (R : Type) (seedFrom : ℕ → R)
    (next : R → ZMod p × R) (sqrtFn : ZMod p → Option (ZMod p)) (s : ℕ) :
    ZMod p × ZMod p × Bool :=
  qr_gen p sqrtFn (next (seedFrom s)).1

/-- Seeded pairing-product generator: draw the three scalars in order from
the seeded RNG, then build the output exponents. -/
def pp2_seed_gen (m : ℕ) (R : Type) (seedFrom : ℕ → R)
    (next : R → ZMod m × R) (s : ℕ) : ZMod m × ZMod m × ZMod m × ZMod m :=
  let d1 := next (seedFrom s)
  let d2 := next d1.2
  let d3 := next d2.2
  pp2_output m d1.1 d2.1 d3.1 s

/-- C6: every seeded generator (pairing-product-of-2, G1 add, G1 negate,
quadratic residue) is a pure function of its seed once the deterministic
RNG and library oracles are fixed, so two invocations with equal seeds
produce identical outputs. -/
theorem seeded_gen_deterministic (m p : ℕ) [NeZero p] (R : Type)
    (seedFrom : ℕ → R) (next : R → ZMod m × R) (nextQ : R → ZMod p × R)
    (sqrtFn : ZMod p → Option (ZMod p)) (s1 s2 : ℕ) (hs : s1 = s2) :
    pp2_seed_gen m R seedFrom next s1 = pp2_seed_gen m R seedFrom next s2
      ∧ g1_add_gen m R seedFrom next s1 = g1_add_gen m R seedFrom next s2
      ∧ g1_neg_gen m R seedFrom next s1 = g1_neg_gen m R seedFrom next s2
      ∧ qr_seed_gen p R seedFrom nextQ sqrtFn s1
          = qr_seed_gen p R seedFrom nextQ sqrtFn s2 := by
  subst hs
  exact ⟨rfl, rfl, rfl, rfl⟩

/-- Witness for C6 with a concrete counting RNG over the moduli 13 and 13
and the seed 5 on both sides. -/
theorem seeded_gen_deterministic_wit :
    (5 : ℕ) = 5
      ∧ (pp2_seed_gen 13 ℕ id (fun r => ((r : ZMod 13), r + 1)) 5
            = pp2_seed_gen 13 ℕ id (fun r => ((r : ZMod 13), r + 1)) 5
          ∧ g1_add_gen 13 ℕ id (fun r => ((r : ZMod 13), r + 1)) 5
              = g1_add_gen 13 ℕ id (fun r => ((r : ZMod 13), r + 1)) 5
          ∧ g1_neg_gen 13 ℕ id (fun r => ((r : ZMod 13), r + 1)) 5
              = g1_neg_gen 13 ℕ id (fun r => ((r : ZMod 13), r + 1)) 5
          ∧ qr_seed_gen 13 ℕ id (fun r => ((r : ZMod 13), r + 1))
                (fun _ => none) 5
              = qr_seed_gen 13 ℕ id (fun r => ((r : ZMod 13), r + 1))
                  (fun _ => none) 5) :=
  ⟨rfl, seeded_gen_deterministic 13 13 ℕ id (fun r => ((r : ZMod 13), r + 1))
      (fun r => ((r : ZMod 13), r + 1)) (fun _ => none) 5 5 rfl⟩

/-- Draw a number of (base, scalar) pairs from the RNG, base before scalar
on each iteration, returning the lists in draw order with the final RNG
state. -/
def draw_pairs (p m : ℕ) (R : Type) (nextB : R → AffinePoint p × R)
    (nextS : R → ZMod m × R) : ℕ → R → (List (AffinePoint p) × List (ZMod m)) × R
  | 0, r => (([], []), r)
  | Nat.succ n, r =>
      let db := nextB r
      let ds := nextS db.2
      let rest := draw_pairs p m R nextB nextS n ds.2
      ((db.1 :: rest.1.1, ds.1 :: rest.1.2), rest.2)

/-- Multi-scalar-multiplication contract of the curve library: the sum of
the scalar-base products over abstract group operations, the empty sum
being the group identity. -/
def msm (p m : ℕ) (padd : AffinePoint p → AffinePoint p → AffinePoint p)
    (psmul : ZMod m → AffinePoint p → AffinePoint p)
    (bases : List (AffinePoint p)) (scalars : List (ZMod m)) : AffinePoint p :=
  (List.zipWith (fun b s => psmul s b) bases scalars).foldl padd
    AffinePoint.infinity

/-- MSM generator: starting from the fixed test-RNG state, draw the
requested number of (base, scalar) pairs, compute the MSM product, and
encode the bases, the scalars, and the product. -/
def msm_gen (p m : ℕ) [NeZero p] [NeZero m] (R : Type) (testRng : R)
    (nextB : R → AffinePoint p × R) (nextS : R → ZMod m × R)
    (padd : AffinePoint p → AffinePoint p → AffinePoint p)
    (psmul : ZMod m → AffinePoint p → AffinePoint p) (n : ℕ) :
    Option (List ParsedG1Point) × Option (List U256) × Option ParsedG1Point :=
  let drawn := draw_pairs p m R nextB nextS n testRng
  (drawn.1.1.mapM (affine_to_parsed p),
    drawn.1.2.mapM (field_to_u256 m),
    affine_to_parsed p (msm p m padd psmul drawn.1.1 drawn.1.2))

/-- C8: the MSM generator invoked with count 0 returns the empty base
list, the empty scalar list, and the group identity encoded as the
all-zero wire pair. -/
theorem msm_gen_zero (p m : ℕ) [NeZero p] [NeZero m] (R : Type) (testRng : R)
    (nextB : R → AffinePoint p × R) (nextS : R → ZMod m × R)
    (padd : AffinePoint p → AffinePoint p → AffinePoint p)
    (psmul : ZMod m → AffinePoint p → AffinePoint p) :
    msm_gen p m R testRng nextB nextS padd psmul 0
      = (some [], some [], some ⟨0, 0⟩) := rfl

/-- Witness for C8 with a concrete counting RNG over the modulus 13. -/
theorem msm_gen_zero_wit :
    msm_gen 13 13 ℕ 0 (fun r => (AffinePoint.point (r : ZMod 13) 1, r + 1))
        (fun r => ((r : ZMod 13), r + 1)) (fun x _ => x) (fun _ x => x) 0
      = (some [], some [], some ⟨0, 0⟩) :=
  msm_gen_zero 13 13 ℕ 0 (fun r => (AffinePoint.point (r : ZMod 13) 1, r + 1))
    (fun r => ((r : ZMod 13), r + 1)) (fun x _ => x) (fun _ x => x)

/-- C10: the MSM generator takes no seed, but its randomness source is
the fixed test-RNG state, so its output is a function of the count alone:
equal counts give identical outputs. -/
theorem msm_gen_deterministic (p m : ℕ) [NeZero p] [NeZero m] (R : Type)
    (testRng : R) (nextB : R → AffinePoint p × R) (nextS : R → ZMod m × R)
    (padd : AffinePoint p → AffinePoint p → AffinePoint p)
    (psmul : ZMod m → AffinePoint p → AffinePoint p) (n1 n2 : ℕ)
    (hn : n1 = n2) :
    msm_gen p m R testRng nextB nextS padd psmul n1
      = msm_gen p m R testRng nextB nextS padd psmul n2 := by
  subst hn
  rfl

/-- Witness for C10 with a concrete counting RNG and count 2 on both
sides. -/
theorem msm_gen_deterministic_wit :
    (2 : ℕ) = 2
      ∧ msm_gen 13 13 ℕ 0 (fun r => (AffinePoint.point (r : ZMod 13) 1, r + 1))
          (fun r => ((r : ZMod 13), r + 1)) (fun x _ => x) (fun _ x => x) 2
        = msm_gen 13 13 ℕ 0 (fun r => (AffinePoint.point (r : ZMod 13) 1, r + 1))
            (fun r => ((r : ZMod 13), r + 1)) (fun x _ => x) (fun _ x => x) 2 :=
  ⟨rfl, msm_gen_deterministic 13 13 ℕ 0
      (fun r => (AffinePoint.point (r : ZMod 13) 1, r + 1))
      (fun r => ((r : ZMod 13), r + 1)) (fun x _ => x) (fun _ x => x) 2 2 rfl⟩

/-- The closed action enumeration of the command-line tool. -/
inductive Action where
  | bn254G2Gen : Action
  | bn254G1FromScalar : Action
  | bn254G1IsOnCurve : Action
  | bn254PairingProd2 : Action
  | bn254MSM : Action
  | bn254ScalarInvOp : Action
  | bn254ScalarNegOp : Action
  | bn254G1AddOp : Action
  | bn254G1NegOp : Action
  | bn254Qr : Action
  | testOnly : Action
deriving DecidableEq

/-- Whether the dispatch arm for an action aborts on the given number of
supplied arguments: every arm except the G2-generator and test-only arms
panics unless exactly one argument is supplied; those two arms have no
arity check at all. -/
def arity_guard_panics (a : Action) (nargs : ℕ) : Bool :=
  match a with
  | .bn254G2Gen => false
  | .testOnly => false
  | _ => decide (nargs ≠ 1)

/-- Fixed per-action argument count asserted by the claim: none for the
G2 generator action, exactly one for every other action. -/
def claimed_arity (a : Action) : ℕ :=
  match a with
  | .bn254G2Gen => 0
  | _ => 1

/-- Counterexample to C9 as stated: the G2-generator action invoked with
one argument differs from its claimed arity of zero, yet the program does
not terminate abruptly — the arm has no arity check and runs normally. -/
theorem arity_counterexample :
    (1 : ℕ) ≠ claimed_arity Action.bn254G2Gen
      ∧ arity_guard_panics Action.bn254G2Gen 1 = false := by
  exact ⟨by decide, rfl⟩

/-- C9 amended: every action other than the G2 generator and the test-only
diagnostic aborts exactly when the number of supplied arguments differs
from one, while the G2-generator and test-only actions never perform an
arity check and proceed for any argument count. -/
theorem arity_guard_correct (a : Action) (n : ℕ) :
    (a ≠ Action.bn254G2Gen → a ≠ Action.testOnly →
        (arity_guard_panics a n = true ↔ n ≠ 1))
      ∧ arity_guard_panics Action.bn254G2Gen n = false
      ∧ arity_guard_panics Action.testOnly n = false := by
  refine ⟨?_, rfl, rfl⟩
  intro hg ht
  cases a with
  | bn254G2Gen => exact absurd rfl hg
  | testOnly => exact absurd rfl ht
  | bn254G1FromScalar => simp [arity_guard_panics]
  | bn254G1IsOnCurve => simp [arity_guard_panics]
  | bn254PairingProd2 => simp [arity_guard_panics]
  | bn254MSM => simp [arity_guard_panics]
  | bn254ScalarInvOp => simp [arity_guard_panics]
  | bn254ScalarNegOp => simp [arity_guard_panics]
  | bn254G1AddOp => simp [arity_guard_panics]
  | bn254G1NegOp => simp [arity_guard_panics]
  | bn254Qr => simp [arity_guard_panics]

/-- Witness for the amended C9: the scalar-inverse action with zero
arguments trips the arity guard. -/
theorem arity_guard_correct_wit :
    arity_guard_panics Action.bn254ScalarInvOp 0 = true :=
  ((arity_guard_correct Action.bn254ScalarInvOp 0).1 (by decide)
      (by decide)).mpr (by decide)

end DiffTest
